import Mathlib

/-!
Verification of the placeholder-substitution core of the DOCX-to-PDF service.

The embedding mirrors `src/services/docx_service.py`:
* a paragraph is a list of runs (text plus an opaque style tag; freshly added
  runs carry the default style `0`, matching the bare `add_run` primitive);
* `tryTok` is the head-anchored step of the regex `\x7b\x7b[^\x7d]+\x7d\x7d`
  (two open braces, one or more non-close-brace characters, two close braces);
* `piecesScan` enumerates the leftmost non-overlapping matches in a text,
  producing the alternating literal/token pieces of `re.split` with a capture
  group (`splitTok`) and the capture list of `re.findall` (`findallNames`);
* `_replace_in_paragraph`, `extract_variables`, `replace_variables`,
  `extract_variables_and_convert_pdf`, `extract_convert_upload_get_url` and
  `normalize_variables_input` follow the corresponding Python functions.

Braces are written with the escapes `\x7b` (open) and `\x7d` (close)
throughout.
-/

namespace DocxProof

/-- A run: an atomic styled text fragment of a paragraph.  The style is opaque
to the substitution core; `0` models the default style produced by the
bare add-run primitive. -/
structure Run where
  text : List Char
  style : Nat
deriving DecidableEq, Repr

/-- A paragraph is an ordered sequence of runs. -/
abbrev Para := List Run

/-- Effective text of a paragraph: the concatenation of its run texts
(`paragraph.text` in python-docx). -/
def effText (p : Para) : List Char := (p.map Run.text).flatten

/-- A variable mapping: association list of (name, value), names unique
(a Python dict). -/
abbrev Mapping := List (List Char × List Char)

/-- Python `variables.get(name)`: first-match association lookup. -/
def lookupVar (M : Mapping) (k : List Char) : Option (List Char) :=
  match M with
  | [] => none
  | kv :: rest => if k = kv.1 then some kv.2 else lookupVar rest k

/-- Wrap a name in token delimiters: open-open ++ name ++ close-close.
This is the Python f-string used by the short-circuit check. -/
def wrapTok (w : List Char) : List Char :=
  '\x7b' :: '\x7b' :: (w ++ ['\x7d', '\x7d'])

/-- Head-anchored token match: if the text starts with two open braces, one or
more non-close-brace characters and two close braces, return the token name
and the remaining text.  This is the regex `\x7b\x7b[^\x7d]+\x7d\x7d`
anchored at the head (greedy `[^\x7d]+` can only stop at the first close
brace, so backtracking never yields another match). -/
def tryTok (l : List Char) : Option (List Char × List Char) :=
  match l with
  | '\x7b' :: '\x7b' :: r =>
    match r.dropWhile (fun c => c ≠ '\x7d') with
    | '\x7d' :: '\x7d' :: rest =>
      let w := r.takeWhile (fun c => c ≠ '\x7d')
      if w.isEmpty then none else some (w, rest)
    | _ => none
  | _ => none

/-- Maximal token-free prefix of a text, paired with the rest: characters are
skipped one at a time while no token match starts at the current position.
This models the scanning loop of the regex engine. -/
def takeUntilTok (l : List Char) : List Char × List Char :=
  match l with
  | [] => ([], [])
  | c :: r =>
    if (tryTok (c :: r)).isSome then ([], c :: r)
    else
      let p := takeUntilTok r
      (c :: p.1, p.2)

/-- A piece of the scanned text: a literal gap or a matched token (the token
piece stores the captured name). -/
inductive Piece where
  | gap (g : List Char)
  | tok (w : List Char)
deriving DecidableEq, Repr

/-- Fuel-indexed scanner: alternating literal and token pieces, leftmost
matches first, no overlap.  With fuel at least the length of the text the
fuel never runs out (each step strictly shortens the text). -/
def piecesScanF (n : Nat) (l : List Char) : List Piece :=
  match n with
  | 0 => [Piece.gap l]
  | Nat.succ m =>
    match tryTok (takeUntilTok l).2 with
    | some (w, rest) =>
      Piece.gap (takeUntilTok l).1 :: Piece.tok w :: piecesScanF m rest
    | none => [Piece.gap l]

/-- The Token Scanner's splitting mode over a whole text. -/
def piecesScan (l : List Char) : List Piece := piecesScanF l.length l

/-- A piece as the plain string `re.split` yields: gaps verbatim, matches as
the full matched substring (delimiters included). -/
def pieceStr : Piece → List Char
  | Piece.gap g => g
  | Piece.tok w => wrapTok w

/-- The captured group of a piece: token pieces carry their name. -/
def pieceName : Piece → Option (List Char)
  | Piece.gap _ => none
  | Piece.tok w => some w

/-- Python `re.split` with the token pattern in a capture group: the pieces as
plain strings (gap, match, gap, match, ..., gap). -/
def splitTok (l : List Char) : List (List Char) :=
  (piecesScan l).map pieceStr

/-- Python `re.findall` with the token pattern: the captured names of all
matches, in text order. -/
def findallNames (l : List Char) : List (List Char) :=
  (piecesScan l).filterMap pieceName

/-- There is a well-formed token (nonempty name) somewhere in the text. -/
def hasTok (l : List Char) : Bool := !(findallNames l).isEmpty

/-- Python substring test `a in b` (contiguous). -/
def isSub (a : List Char) : List Char → Bool
  | [] => a.isEmpty
  | c :: r => a.isPrefixOf (c :: r) || isSub a r

/-- Python `part.startswith` of two open braces. -/
def startsTok (p : List Char) : Bool := p.take 2 = ['\x7b', '\x7b']

/-- Python `part.endswith` of two close braces. -/
def endsTok (p : List Char) : Bool := p.reverse.take 2 = ['\x7d', '\x7d']

/-- Python `part[2:-2]`: strip two characters from each end. -/
def innerName (p : List Char) : List Char := ((p.drop 2).dropLast).dropLast

/-- The loop body of `_replace_in_paragraph` for one piece of the split: a
piece that starts with two open braces and ends with two close braces is
treated as a variable (looked up, kept verbatim when unknown); any other
nonempty piece becomes a literal run; empty pieces are dropped. -/
def emitPart (M : Mapping) (p : List Char) : List Run :=
  if startsTok p && endsTok p then
    [⟨(lookupVar M (innerName p)).getD p, 0⟩]
  else if p.isEmpty then [] else [⟨p, 0⟩]

/-- Embedding of `_replace_in_paragraph`: if no mapping key wrapped in token delimiters
occurs as a substring of the paragraph's effective text, the paragraph is
returned untouched; otherwise the runs are discarded and rebuilt from the
split pieces of the effective text. -/
def _replace_in_paragraph (p : Para) (M : Mapping) : Para :=
  if M.any (fun kv => isSub (wrapTok kv.1) (effText p)) then
    ((splitTok (effText p)).map (emitPart M)).flatten
  else p

/-- Modelled from the spec (sections 4.1 and 4.3): run the Token Scanner's
splitting mode over the flattened text; emit each literal piece unchanged;
for each token piece look its name up in the mapping, emitting the mapped
value when the name is a key and the original token substring (with its
delimiters) otherwise. -/
def claimPiece (M : Mapping) : Piece → List Char
  | Piece.gap g => g
  | Piece.tok w => (lookupVar M w).getD (wrapTok w)

/-- Modelled from the spec (sections 4.1 and 4.3), second half: the rewritten
text is the concatenation of the rewritten pieces. -/
def claimReplace (M : Mapping) (l : List Char) : List Char :=
  ((piecesScan l).map (claimPiece M)).flatten

/-- Effective text contributed by a list of runs. -/
def runsText (rs : List Run) : List Char := (rs.map Run.text).flatten

/-- A mapping whose keys are all well-formed token names: nonempty and free
of close braces. -/
def GoodKeys (M : Mapping) : Prop :=
  ∀ kv ∈ M, kv.1 ≠ [] ∧ ∀ c ∈ kv.1, c ≠ '\x7d'

instance goodKeysDecidable (M : Mapping) : Decidable (GoodKeys M) := by
  unfold GoodKeys
  infer_instance

/-! ### Scanner lemmas -/

theorem takeWhile_of_all {p : Char → Bool} :
    ∀ (u : List Char) (a : Char) (t : List Char), (∀ c ∈ u, p c = true) →
      p a = false → (u ++ a :: t).takeWhile p = u := by
  intro u
  induction u with
  | nil => intro a t _ ha; simp [ha]
  | cons x xs ih =>
    intro a t hu ha
    have hx : p x = true := hu x (by simp)
    simp only [List.cons_append, List.takeWhile_cons_of_pos hx]
    rw [ih a t (fun c hc => hu c (by simp [hc])) ha]

theorem dropWhile_of_all {p : Char → Bool} :
    ∀ (u : List Char) (a : Char) (t : List Char), (∀ c ∈ u, p c = true) →
      p a = false → (u ++ a :: t).dropWhile p = a :: t := by
  intro u
  induction u with
  | nil => intro a t _ ha; simp [ha]
  | cons x xs ih =>
    intro a t hu ha
    have hx : p x = true := hu x (by simp)
    simp only [List.cons_append, List.dropWhile_cons_of_pos hx]
    exact ih a t (fun c hc => hu c (by simp [hc])) ha

theorem mem_takeWhile_pred {p : Char → Bool} :
    ∀ {l : List Char} {a : Char}, a ∈ l.takeWhile p → p a = true := by
  intro l
  induction l with
  | nil => intro a h; simp [List.takeWhile] at h
  | cons x xs ih =>
    intro a h
    rw [List.takeWhile_cons] at h
    by_cases hx : p x = true
    · simp [hx] at h
      rcases h with h | h
      · exact h ▸ hx
      · exact ih h
    · simp [Bool.of_not_eq_true hx] at h

/-- Anatomy of a successful head match: the name is nonempty, free of close
braces, and the input decomposes as the wrapped token followed by the rest. -/
theorem tryTok_eq_some {l w rest} (h : tryTok l = some (w, rest)) :
    w ≠ [] ∧ (∀ c ∈ w, c ≠ '\x7d') ∧ l = wrapTok w ++ rest := by
  unfold tryTok at h
  split at h
  next r =>
    split at h
    next rest' heq =>
      simp only at h
      split at h
      next he => cases h
      next he =>
        rw [Option.some_inj] at h
        have hw : List.takeWhile (fun c => decide (c ≠ '\x7d')) r = w := congrArg Prod.fst h
        have hrest : rest' = rest := congrArg Prod.snd h
        subst hrest
        refine ⟨?_, ?_, ?_⟩
        · intro hnil
          apply he
          rw [hw, hnil]
          rfl
        · intro c hc
          have hc' : c ∈ List.takeWhile (fun c => decide (c ≠ '\x7d')) r := by
            rw [hw]; exact hc
          have := mem_takeWhile_pred hc'
          simpa using this
        · have hsplit := List.takeWhile_append_dropWhile
            (p := fun c => decide (c ≠ '\x7d')) (l := r)
          rw [hw, heq] at hsplit
          rw [wrapTok]
          simp only [List.cons_append, List.append_assoc]
          rw [← hsplit]
          simp
    next heq => cases h
  next => cases h

theorem tryTok_wrap_append {w : List Char} (b : List Char) (hne : w ≠ [])
    (hfree : ∀ c ∈ w, c ≠ '\x7d') :
    tryTok (wrapTok w ++ b) = some (w, b) := by
  have hall : ∀ c ∈ w, (fun c => decide (c ≠ '\x7d')) c = true := by
    intro c hc; simp [hfree c hc]
  have hcl : (fun c => decide (c ≠ '\x7d')) '\x7d' = false := by simp
  have htw := takeWhile_of_all (p := fun c => decide (c ≠ '\x7d')) w '\x7d' ('\x7d' :: b) hall hcl
  have hdw := dropWhile_of_all (p := fun c => decide (c ≠ '\x7d')) w '\x7d' ('\x7d' :: b) hall hcl
  have hshape : wrapTok w ++ b = '\x7b' :: '\x7b' :: (w ++ '\x7d' :: '\x7d' :: b) := by
    simp [wrapTok]
  rw [hshape]
  unfold tryTok
  simp only [hdw, htw, List.isEmpty_iff, hne]
  simp [hne]

theorem tryTok_length {l w rest} (h : tryTok l = some (w, rest)) :
    rest.length < l.length := by
  obtain ⟨_, _, hl⟩ := tryTok_eq_some h
  rw [hl, wrapTok]
  simp only [List.length_append, List.length_cons]
  omega

theorem takeUntilTok_append : ∀ l : List Char,
    (takeUntilTok l).1 ++ (takeUntilTok l).2 = l := by
  intro l
  induction l with
  | nil => rfl
  | cons c r ih =>
    rw [takeUntilTok]
    by_cases h : (tryTok (c :: r)).isSome
    · simp [h]
    · simp only [h, if_false]
      simpa using ih

theorem takeUntilTok_fst_ne_nil {l : List Char}
    (h : (takeUntilTok l).1 ≠ []) : tryTok l = none := by
  cases l with
  | nil => rfl
  | cons c r =>
    rw [takeUntilTok] at h
    by_cases hs : (tryTok (c :: r)).isSome
    · simp [hs] at h
    · exact Option.not_isSome_iff_eq_none.mp hs

theorem takeUntilTok_of_isSome {l : List Char} (h : (tryTok l).isSome) :
    takeUntilTok l = ([], l) := by
  cases l with
  | nil => simp [tryTok] at h
  | cons c r => rw [takeUntilTok]; simp [h]

theorem takeUntilTok_snd_length (l : List Char) :
    (takeUntilTok l).2.length ≤ l.length := by
  conv_rhs => rw [← takeUntilTok_append l]
  simp


/-! ### Pieces lemmas -/

theorem pieces_flatten : ∀ (n : Nat) (l : List Char), l.length ≤ n →
    ((piecesScanF n l).map pieceStr).flatten = l := by
  intro n
  induction n with
  | zero => intro l _; simp [piecesScanF, pieceStr]
  | succ m ih =>
    intro l hl
    rw [piecesScanF]
    cases htt : tryTok (takeUntilTok l).2 with
    | none => simp [pieceStr]
    | some pr =>
      obtain ⟨w, rest⟩ := pr
      obtain ⟨-, -, hsnd⟩ := tryTok_eq_some htt
      have hrl : rest.length ≤ m := by
        have h1 := tryTok_length htt
        have h2 := takeUntilTok_snd_length l
        omega
      simp only [List.map_cons, List.flatten_cons, pieceStr]
      rw [ih rest hrl]
      rw [← hsnd]
      exact takeUntilTok_append l

theorem pieces_tok_good : ∀ (n : Nat) (l w : List Char),
    Piece.tok w ∈ piecesScanF n l → w ≠ [] ∧ ∀ c ∈ w, c ≠ '\x7d' := by
  intro n
  induction n with
  | zero => intro l w h; simp [piecesScanF] at h
  | succ m ih =>
    intro l w h
    rw [piecesScanF] at h
    cases htt : tryTok (takeUntilTok l).2 with
    | none => rw [htt] at h; simp at h
    | some pr =>
      obtain ⟨w', rest⟩ := pr
      rw [htt] at h
      simp only [List.mem_cons] at h
      rcases h with h | h | h
      · cases h
      · obtain ⟨hne, hfree, -⟩ := tryTok_eq_some htt
        cases h
        exact ⟨hne, hfree⟩
      · exact ih rest w h

theorem pieces_gap_good : ∀ (n : Nat) (l g mid : List Char), l.length ≤ n →
    Piece.gap g ∈ piecesScanF n l → g = wrapTok mid → mid ≠ [] →
    (∀ c ∈ mid, c ≠ '\x7d') → False := by
  intro n
  induction n with
  | zero =>
    intro l g mid hl h hg _ _
    have : l = [] := List.length_eq_zero.mp (Nat.le_zero.mp hl)
    subst this
    simp [piecesScanF] at h
    rw [h, wrapTok] at hg
    cases hg
  | succ m ih =>
    intro l g mid hl h hg hne hfree
    rw [piecesScanF] at h
    cases htt : tryTok (takeUntilTok l).2 with
    | none =>
      rw [htt] at h
      simp at h
      -- g = l, so l is a wrapped good token and tryTok l matches
      have hsome : tryTok l = some (mid, []) := by
        rw [h] at hg
        rw [hg]
        have := tryTok_wrap_append ([] : List Char) hne hfree
        simpa using this
      have htut := takeUntilTok_of_isSome (l := l) (by simp [hsome])
      rw [htut] at htt
      rw [hsome] at htt
      cases htt
    | some pr =>
      obtain ⟨w', rest⟩ := pr
      rw [htt] at h
      simp only [List.mem_cons] at h
      rcases h with h | h | h
      · -- g is the literal gap before the match
        have hfst : (takeUntilTok l).1 = g := by cases h; rfl
        have hgne : (takeUntilTok l).1 ≠ [] := by
          rw [hfst, hg, wrapTok]; simp
        have hnone := takeUntilTok_fst_ne_nil hgne
        have : tryTok l = some (mid, (takeUntilTok l).2) := by
          conv_lhs => rw [← takeUntilTok_append l]
          rw [hfst, hg]
          exact tryTok_wrap_append _ hne hfree
        rw [hnone] at this
        cases this
      · cases h
      · have hrl : rest.length ≤ m := by
          have h1 := tryTok_length htt
          have h2 := takeUntilTok_snd_length l
          omega
        exact ih rest g mid hrl h hg hne hfree

/-! ### Emission lemmas -/

theorem lookupVar_some_mem {M : Mapping} {k v : List Char}
    (h : lookupVar M k = some v) : ∃ kv ∈ M, kv.1 = k := by
  induction M with
  | nil => cases h
  | cons kv rest ih =>
    rw [lookupVar] at h
    by_cases hk : k = kv.1
    · exact ⟨kv, by simp, hk.symm⟩
    · simp only [hk, if_false] at h
      obtain ⟨kv', hm, he⟩ := ih h
      exact ⟨kv', by simp [hm], he⟩

theorem dropLast_two_concat (w : List Char) (a b : Char) :
    ((w ++ [a, b]).dropLast).dropLast = w := by
  have h1 : w ++ [a, b] = (w ++ [a]) ++ [b] := by simp
  rw [h1, List.dropLast_concat, List.dropLast_concat]

theorem startsTok_wrap (w : List Char) : startsTok (wrapTok w) = true := by
  simp [startsTok, wrapTok]

theorem endsTok_wrap (w : List Char) : endsTok (wrapTok w) = true := by
  have h : wrapTok w = ('\x7b' :: '\x7b' :: w) ++ ['\x7d', '\x7d'] := by
    simp [wrapTok]
  rw [endsTok, h]
  simp [List.reverse_append]

theorem innerName_wrap (w : List Char) : innerName (wrapTok w) = w := by
  rw [innerName, wrapTok]
  simp only [List.drop_succ_cons, List.drop_zero]
  exact dropLast_two_concat w _ _

/-- A piece string that passes the startswith/endswith checks is exactly a
wrapped name (possibly empty, possibly containing close braces). -/
theorem startsTok_endsTok_shape {p : List Char}
    (h1 : startsTok p = true) (h2 : endsTok p = true) :
    p = wrapTok (innerName p) := by
  rw [startsTok] at h1
  rw [endsTok] at h2
  match p, h1, h2 with
  | [], h1, h2 => simp at h1
  | [a], h1, h2 => simp at h1
  | a :: b :: q, h1, h2 =>
    simp only [List.take, List.cons.injEq, decide_eq_true_eq] at h1
    obtain ⟨ha, hb, -⟩ := h1
    subst ha; subst hb
    match hr : (('\x7b' :: '\x7b' :: q).reverse), h2 with
    | [], h2 => simp at hr
    | [d], h2 => simp at h2
    | d1 :: d2 :: t2, h2 =>
      simp only [List.take, List.cons.injEq, decide_eq_true_eq] at h2
      obtain ⟨hd1, hd2, -⟩ := h2
      subst hd1; subst hd2
      have hp : '\x7b' :: '\x7b' :: q = t2.reverse ++ ['\x7d', '\x7d'] := by
        have := congrArg List.reverse hr
        simpa using this
      match t2r : t2.reverse, hp with
      | [], hp => cases hp
      | [e], hp =>
        simp only [List.cons_append, List.nil_append, List.cons.injEq] at hp
        obtain ⟨-, hcontr, -⟩ := hp
        cases hcontr
      | e1 :: e2 :: m2, hp =>
        simp only [List.cons_append, List.cons.injEq] at hp
        obtain ⟨-, -, hq⟩ := hp
        rw [innerName]
        simp only [List.drop_succ_cons, List.drop_zero]
        rw [hq, dropLast_two_concat, wrapTok]

theorem runsText_singleton (t : List Char) (s : Nat) :
    runsText [⟨t, s⟩] = t := by
  simp [runsText]

theorem emit_tok (M : Mapping) (w : List Char) :
    runsText (emitPart M (wrapTok w)) = (lookupVar M w).getD (wrapTok w) := by
  rw [emitPart]
  simp only [startsTok_wrap, endsTok_wrap, Bool.and_self, if_true, innerName_wrap]
  exact runsText_singleton _ _

/-- In context, a literal gap piece is always re-emitted verbatim when the
mapping's keys are well-formed token names: a gap piece that passes the
startswith/endswith check wraps a name that cannot be a key. -/
theorem emit_gap {M : Mapping} (hM : GoodKeys M) {n : Nat} {l g : List Char}
    (hl : l.length ≤ n) (hmem : Piece.gap g ∈ piecesScanF n l) :
    runsText (emitPart M g) = g := by
  rw [emitPart]
  by_cases hse : (startsTok g && endsTok g) = true
  · rw [if_pos hse]
    obtain ⟨h1, h2⟩ := Bool.and_eq_true_iff.mp hse
    have hshape := startsTok_endsTok_shape h1 h2
    cases hlk : lookupVar M (innerName g) with
    | none => simp [runsText]
    | some v =>
      exfalso
      obtain ⟨kv, hkv, hkey⟩ := lookupVar_some_mem hlk
      obtain ⟨hne, hfree⟩ := hM kv hkv
      rw [hkey] at hne hfree
      exact pieces_gap_good n l g (innerName g) hl hmem hshape hne hfree
  · rw [if_neg (by simpa using hse)]
    by_cases hg : g.isEmpty
    · have : g = [] := by simpa [List.isEmpty_iff] using hg
      simp [this, runsText]
    · rw [if_neg (by simpa using hg)]
      exact runsText_singleton _ _

theorem runsText_flatten_map (f : List Char → List Run) :
    ∀ parts : List (List Char),
      runsText ((parts.map f).flatten) = (parts.map (fun q => runsText (f q))).flatten := by
  intro parts
  induction parts with
  | nil => rfl
  | cons a rest ih =>
    simp only [List.map_cons, List.flatten_cons]
    rw [← ih]
    simp [runsText]

/-- Rebuilding the runs from the split pieces produces exactly the spec-side
rewritten text, for any mapping whose keys are well-formed token names. -/
theorem code_text_eq_claim (M : Mapping) (hM : GoodKeys M) (t : List Char) :
    runsText (((splitTok t).map (emitPart M)).flatten) = claimReplace M t := by
  rw [splitTok, claimReplace, runsText_flatten_map, List.map_map]
  apply congrArg List.flatten
  apply List.map_congr_left
  intro pc hmem
  cases pc with
  | gap g =>
    simp only [Function.comp_apply, pieceStr, claimPiece]
    exact emit_gap hM (Nat.le_refl _) hmem
  | tok w =>
    simp only [Function.comp_apply, pieceStr, claimPiece]
    exact emit_tok M w

/-! ### Substring bridge and the no-op branch -/

theorem isSub_iff {a : List Char} : ∀ {b : List Char}, isSub a b = true ↔ a <:+: b := by
  intro b
  induction b with
  | nil =>
    rw [isSub]
    simp [List.isEmpty_iff]
  | cons c r ih =>
    rw [isSub]
    rw [Bool.or_eq_true, List.isPrefixOf_iff_prefix, ih]
    exact (List.infix_cons_iff).symm

theorem mem_flatten_contains {x : List Char} {L : List (List Char)}
    (h : x ∈ L) : x <:+: L.flatten := by
  obtain ⟨s, t, hst⟩ := List.append_of_mem h
  refine ⟨s.flatten, t.flatten, ?_⟩
  rw [hst]
  simp

/-- When no key's wrapped form occurs in the text, the spec-side rewrite is
the identity. -/
theorem claimReplace_id {M : Mapping} {t : List Char}
    (h : ∀ kv ∈ M, ¬ (wrapTok kv.1 <:+: t)) : claimReplace M t = t := by
  rw [claimReplace]
  have hfl : ((piecesScan t).map pieceStr).flatten = t :=
    pieces_flatten t.length t (Nat.le_refl _)
  conv_rhs => rw [← hfl]
  apply congrArg List.flatten
  apply List.map_congr_left
  intro pc hmem
  cases pc with
  | gap g => rfl
  | tok w =>
    simp only [claimPiece, pieceStr]
    cases hlk : lookupVar M w with
    | none => rfl
    | some v =>
      exfalso
      obtain ⟨kv, hkv, hkey⟩ := lookupVar_some_mem hlk
      apply h kv hkv
      rw [hkey]
      have hx : wrapTok w ∈ (piecesScan t).map pieceStr :=
        List.mem_map.mpr ⟨Piece.tok w, hmem, rfl⟩
      have := mem_flatten_contains hx
      rwa [hfl] at this

/-! ### Document model (python-docx object tree, as used by the service) -/

/-- A table cell: a container of paragraphs. -/
structure Cell where
  paragraphs : List Para
deriving DecidableEq, Repr

/-- A table row. -/
structure TableRow where
  cells : List Cell
deriving DecidableEq, Repr

/-- A table in the document body. -/
structure Table where
  rows : List TableRow
deriving DecidableEq, Repr

/-- A header or footer: a container of paragraphs. -/
structure HeaderFooter where
  paragraphs : List Para
deriving DecidableEq, Repr

/-- A section with its optional header and footer (`none` models a falsy or
absent header/footer, skipped by the traversals). -/
structure Section where
  header : Option HeaderFooter
  footer : Option HeaderFooter
deriving DecidableEq, Repr

/-- A document: body paragraphs, body tables and sections.  Serialization is
the identity in this embedding (the byte form and the object form are
identified). -/
structure DocT where
  paragraphs : List Para
  tables : List Table
  sections : List Section
deriving DecidableEq, Repr

/-- Newline-join of paragraph texts, as python-docx `cell.text` yields. -/
def joinNL : List (List Char) → List Char
  | [] => []
  | [x] => x
  | x :: xs => x ++ '\n' :: joinNL xs

/-- python-docx `cell.text`: the cell's paragraph texts joined by newlines. -/
def cellText (c : Cell) : List Char := joinNL (c.paragraphs.map effText)

/-- Insert into a strictly sorted list, keeping it a set: models the Python
`sorted(list(set(...)))` canonicalization. -/
def setInsert (x : String) : List String → List String
  | [] => [x]
  | y :: ys => if x < y then x :: y :: ys else if x = y then y :: ys else y :: setInsert x ys

/-- Sorted deduplicated list of a list of names (Python set + sorted). -/
def sortedSet (xs : List String) : List String :=
  xs.foldl (fun acc x => setInsert x acc) []

/-- Paragraph texts of an optional header or footer; an absent one
contributes nothing. -/
def hfTexts : Option HeaderFooter → List (List Char)
  | some hf => hf.paragraphs.map effText
  | none => []

/-- The texts `extract_variables` scans, in traversal order: body paragraphs,
then table cell texts, then each section's header and footer paragraphs
(absent ones skipped). -/
def extractTexts (D : DocT) : List (List Char) :=
  D.paragraphs.map effText
    ++ (D.tables.map fun tb =>
          (tb.rows.map fun r => r.cells.map cellText).flatten).flatten
    ++ (D.sections.map fun s => hfTexts s.header ++ hfTexts s.footer).flatten

/-- Names found in one text, as strings (`re.findall` captures). -/
def namesOfText (t : List Char) : List String :=
  (findallNames t).map (fun w => String.mk w)

/-- Embedding of `extract_variables`: all `\x7b\x7b...\x7d\x7d` names found in body
paragraphs, table cells, headers and footers, as a sorted set of strings. -/
def extract_variables (D : DocT) : List String :=
  sortedSet ((extractTexts D).map namesOfText).flatten

/-- Embedding of `replace_variables`: apply `_replace_in_paragraph` to every paragraph of
every region (body, table cells, headers, footers) and reserialize. -/
def replace_variables (D : DocT) (M : Mapping) : DocT :=
  { paragraphs := D.paragraphs.map (fun p => _replace_in_paragraph p M)
    tables := D.tables.map fun tb =>
      { rows := tb.rows.map fun r =>
          { cells := r.cells.map fun c =>
              { paragraphs := c.paragraphs.map (fun p => _replace_in_paragraph p M) } } }
    sections := D.sections.map fun s =>
      { header := s.header.map fun h =>
          { paragraphs := h.paragraphs.map (fun p => _replace_in_paragraph p M) }
        footer := s.footer.map fun f =>
          { paragraphs := f.paragraphs.map (fun p => _replace_in_paragraph p M) } } }

/-- Embedding of `extract_variables_and_convert_pdf`: extract from the original document,
then convert (with replacement first if a truthy mapping is supplied; `none`
and the empty mapping are falsy). -/
def extract_variables_and_convert_pdf {Pdf : Type} (convert : DocT → Pdf)
    (D : DocT) (vars : Option Mapping) : List String × Pdf :=
  let extracted := extract_variables D
  let docForConversion :=
    match vars with
    | some v => if v.isEmpty then D else replace_variables D v
    | none => D
  (extracted, convert docForConversion)

/-- Default S3 key path segment for generated PDF files. -/
def defaultPrefixStr : String := "generated-pdfs"

/-- File extension of the produced object key. -/
def pdfExt : String := ".pdf"

/-- Result of the extract-convert-upload-presign operation. -/
structure UploadResult where
  varNames : List String
  pdfKey : String
  presignedUrl : String
deriving DecidableEq, Repr

/-- Python `str.strip` of a single character from both ends. -/
def pyStrip (s : List Char) (c : Char) : List Char :=
  ((s.dropWhile (fun a => a = c)).reverse.dropWhile (fun a => a = c)).reverse

/-- Embedding of `extract_convert_upload_get_url`: extract from the original document,
optionally replace, convert, upload (opaque), and presign.  The conversion,
presign capability and the uuid are injected. -/
def extract_convert_upload_get_url {Pdf : Type} (convert : DocT → Pdf)
    (presign : String → String → Nat → String) (unique_id : String)
    (D : DocT) (vars : Option Mapping) (bucket_name : String)
    ( s3_prefix : Option String) (presign_ttl_seconds : Nat) : UploadResult :=
  let extracted := extract_variables D
  let finalDoc :=
    match vars with
    | some v => if v.isEmpty then D else replace_variables D v
    | none => D
  let _pdf := convert finalDoc
  let pfxSrc :=
    match s3_prefix with
    | some s => if s.isEmpty then defaultPrefixStr else s
    | none => defaultPrefixStr
  let pfx := pyStrip pfxSrc.data '/'
  let key :=
    if pfx.isEmpty then unique_id ++ pdfExt
    else String.mk (pfx ++ '/' :: (unique_id ++ pdfExt).data)
  { varNames := extracted
    pdfKey := key
    presignedUrl := presign bucket_name key presign_ttl_seconds }

/-! ### Variable-mapping normalization -/

/-- Python `str(None)`. -/
def noneStr : String := "None"

/-- Python `str(True)`. -/
def trueStr : String := "True"

/-- Python `str(False)`. -/
def falseStr : String := "False"

/-- Field key of the record name. -/
def nameField : String := "name"

/-- Field key of the record value. -/
def valueField : String := "value"

/-- Message of the `ValueError` raised on an unrecognized input shape. -/
def invalidVarsMsg : String := "variables must be a dict or an array of objects with name/value"

/-- A primitive Python value, as far as normalization observes it:
`str(...)` and `is None` are the only operations applied. -/
inductive PyVal where
  | pynone
  | pystr (s : String)
  | pyint (n : Int)
  | pybool (b : Bool)
deriving DecidableEq, Repr

/-- Python `str(...)` on a primitive value. -/
def pyStr : PyVal → String
  | PyVal.pynone => noneStr
  | PyVal.pystr s => s
  | PyVal.pyint n => toString n
  | PyVal.pybool b => if b then trueStr else falseStr

/-- An element of a `variables` list: either a dict record (fields keyed by
string) or some non-dict value (skipped by normalization). -/
inductive ListItem where
  | record (fields : List (String × PyVal))
  | nondict (v : PyVal)
deriving DecidableEq, Repr

/-- The possible shapes of the `variables_input` argument: Python `None`,
a dict, a list, or anything else. -/
inductive VarsInput where
  | pynone
  | pydict (entries : List (PyVal × PyVal))
  | pylist (items : List ListItem)
  | other
deriving DecidableEq, Repr

/-- Python `item.get(key)`: first-match field lookup in a dict record. -/
def fieldGet (fs : List (String × PyVal)) (k : String) : Option PyVal :=
  match fs with
  | [] => none
  | f :: rest => if f.1 = k then some f.2 else fieldGet rest k

/-- Python dict assignment `d[k] = v`: overwrite in place if the key exists,
else append. -/
def dictInsert (m : List (String × String)) (k v : String) : List (String × String) :=
  if m.any (fun kv => kv.1 = k) then
    m.map (fun kv => if kv.1 = k then (k, v) else kv)
  else m ++ [(k, v)]

/-- The dict branch of `normalize_variables_input`: stringify key and value
(`None` value becomes empty text), drop entries whose key stringifies to
empty text. -/
def normalizeDictStep (acc : List (String × String)) (e : PyVal × PyVal) :
    List (String × String) :=
  let keyStr := pyStr e.1
  let valueStr := if e.2 = PyVal.pynone then "" else pyStr e.2
  if keyStr ≠ "" then dictInsert acc keyStr valueStr else acc

/-- The list branch of `normalize_variables_input`: skip non-dict items, skip
records whose name field is absent or `None`, default an absent value field
to empty text, stringify, and drop empty names. -/
def normalizeListStep (acc : List (String × String)) (item : ListItem) :
    List (String × String) :=
  match item with
  | ListItem.nondict _ => acc
  | ListItem.record fs =>
    match fieldGet fs nameField with
    | none => acc
    | some PyVal.pynone => acc
    | some nameVal =>
      let valueStr :=
        match fieldGet fs valueField with
        | none => ""
        | some PyVal.pynone => ""
        | some v => pyStr v
      let nameStr := pyStr nameVal
      if nameStr ≠ "" then dictInsert acc nameStr valueStr else acc

/-- Embedding of `normalize_variables_input`: Python `None` yields the empty mapping, a dict or a
list is normalized entry by entry, anything else raises `ValueError`. -/
def normalize_variables_input (vin : VarsInput) :
    Except String (List (String × String)) :=
  match vin with
  | VarsInput.pynone => Except.ok []
  | VarsInput.pydict entries => Except.ok (entries.foldl normalizeDictStep [])
  | VarsInput.pylist items => Except.ok (items.foldl normalizeListStep [])
  | VarsInput.other => Except.error invalidVarsMsg

/-! ### Token presence under embedding -/

theorem tut_matches_of_embedded : ∀ (u : List Char) {w : List Char} (v : List Char),
    w ≠ [] → (∀ c ∈ w, c ≠ '\x7d') →
    (tryTok (takeUntilTok (u ++ (wrapTok w ++ v))).2).isSome := by
  intro u
  induction u with
  | nil =>
    intro w v hne hfree
    have hsome : tryTok (wrapTok w ++ v) = some (w, v) := tryTok_wrap_append v hne hfree
    rw [List.nil_append, takeUntilTok_of_isSome (by simp [hsome])]
    simp [hsome]
  | cons c u' ih =>
    intro w v hne hfree
    rw [List.cons_append, takeUntilTok]
    by_cases hs : (tryTok (c :: (u' ++ (wrapTok w ++ v)))).isSome
    · simp [hs]
    · simp only [hs, if_false]
      exact ih v hne hfree

theorem hasTok_of_contains {w t : List Char} (hinf : wrapTok w <:+: t)
    (hne : w ≠ []) (hfree : ∀ c ∈ w, c ≠ '\x7d') : hasTok t = true := by
  obtain ⟨u, v, hst⟩ := hinf
  rw [List.append_assoc] at hst
  subst hst
  have hsome := tut_matches_of_embedded u v hne hfree
  rw [hasTok, findallNames, piecesScan]
  cases hlen : (u ++ (wrapTok w ++ v)).length with
  | zero =>
    exfalso
    have : u ++ (wrapTok w ++ v) = [] := List.length_eq_zero.mp hlen
    rw [this] at hsome
    simp [takeUntilTok, tryTok] at hsome
  | succ m =>
    rw [piecesScanF]
    cases htt : tryTok (takeUntilTok (u ++ (wrapTok w ++ v))).2 with
    | none => simp [htt] at hsome
    | some pr =>
      obtain ⟨w', rest⟩ := pr
      simp [pieceName]

/-! ### Claim theorems: paragraph-level substitution -/

/-- Token name of the split-token example. -/
def nameW : List Char := ['n', 'a', 'm', 'e']

/-- The three runs of the spec's split-token example (token straddling a run
boundary), with distinct style tags. -/
def exC1Runs : Para :=
  [⟨['H', 'e', 'l'], 1⟩,
   ⟨['l', 'o', ' ', '\x7b', '\x7b', 'n', 'a'], 2⟩,
   ⟨['m', 'e', '\x7d', '\x7d', '!'], 3⟩]

/-- The split-token example's mapping. -/
def exC1Map : Mapping := [(nameW, ['X'])]

/-- A text containing the well-formed token x followed by the non-token
substring open-open a close b close-close. -/
def cexC1Text : List Char :=
  ['\x7b', '\x7b', 'x', '\x7d', '\x7d', '\x7b', '\x7b', 'a', '\x7d', 'b', '\x7d', '\x7d']

/-- A mapping with the well-formed key x and the malformed key a-close-b. -/
def cexC1Map : Mapping := [(['x'], ['X']), (['a', '\x7d', 'b'], ['Z'])]

/-- One-run paragraph carrying `cexC1Text`. -/
def cexC1Para : Para := [⟨cexC1Text, 1⟩]

/-- C1 (amended): for every paragraph and every mapping whose keys are
well-formed token names (nonempty, free of close braces), substitution makes
the paragraph's new effective text equal to the flattened original text with
every token whose name is a mapping key replaced by its value and every other
piece (unknown tokens included) kept verbatim, pieces emitted in the original
left-to-right order; in particular the split-token example yields effective
text Hello X!. -/
theorem claim_C1 (p : Para) (M : Mapping) (hM : GoodKeys M) :
    effText (_replace_in_paragraph p M) = claimReplace M (effText p) := by
  rw [_replace_in_paragraph]
  split
  next hcond => exact code_text_eq_claim M hM (effText p)
  next hcond =>
    refine (claimReplace_id ?_).symm
    intro kv hkv hinf
    apply hcond
    rw [List.any_eq_true]
    exact ⟨kv, hkv, isSub_iff.mpr hinf⟩

/-- Witness for C1: the split-token example, with the concluding effective
text evaluated on both sides. -/
theorem claim_C1_witness :
    effText (_replace_in_paragraph exC1Runs exC1Map) =
        claimReplace exC1Map (effText exC1Runs) ∧
      effText (_replace_in_paragraph exC1Runs exC1Map) =
        ['H', 'e', 'l', 'l', 'o', ' ', 'X', '!'] :=
  ⟨claim_C1 exC1Runs exC1Map (by decide), by decide⟩

/-- Counterexample to C1 as frozen: the effective text contains a well-formed
token, yet the new effective text is not the flattened text with tokens
replaced — the malformed mapping key a-close-b also triggers a replacement of
a non-token piece. -/
theorem claim_C1_counterexample :
    hasTok (effText cexC1Para) = true ∧
    effText (_replace_in_paragraph cexC1Para cexC1Map) = ['X', 'Z'] ∧
    claimReplace cexC1Map (effText cexC1Para) =
      ['X', '\x7b', '\x7b', 'a', '\x7d', 'b', '\x7d', '\x7d'] ∧
    effText (_replace_in_paragraph cexC1Para cexC1Map) ≠
      claimReplace cexC1Map (effText cexC1Para) := by
  refine ⟨by decide, by decide, by decide, by decide⟩

/-- Leading literal text of the unknown-token example. -/
def helloLit : List Char := ['H', 'e', 'l', 'l', 'o', ' ']

/-- Name of the unknown token. -/
def unknownW : List Char := ['u', 'n', 'k', 'n', 'o', 'w', 'n']

/-- Separator literal of the unknown-token example. -/
def commaLit : List Char := [',', ' ']

/-- The effective text Hello open-open name close-close comma space open-open
unknown close-close bang. -/
def exC2Text : List Char :=
  helloLit ++ wrapTok nameW ++ commaLit ++ wrapTok unknownW ++ ['!']

/-- Replacement value of the unknown-token example. -/
def worldVal : List Char := ['W', 'o', 'r', 'l', 'd']

/-- Mapping of the unknown-token example: only name is a key. -/
def exC2Map : Mapping := [(nameW, worldVal)]

/-- Expected effective text: Hello World comma space then the unknown token
verbatim then bang. -/
def exC2Out : List Char :=
  helloLit ++ worldVal ++ commaLit ++ wrapTok unknownW ++ ['!']

/-- C2: a well-formed token whose name is not a mapping key is re-emitted
verbatim, delimiters included, as a single run; and the spec's example text
with only the key name mapped rewrites to Hello World comma space unknown
token bang. -/
theorem claim_C2 (M : Mapping) (w : List Char) (hne : w ≠ [])
    (hfree : ∀ c ∈ w, c ≠ '\x7d') (hunknown : lookupVar M w = none) :
    emitPart M (wrapTok w) = [⟨wrapTok w, 0⟩] ∧
    effText (_replace_in_paragraph [⟨exC2Text, 1⟩] exC2Map) = exC2Out := by
  constructor
  · rw [emitPart]
    simp [startsTok_wrap, endsTok_wrap, innerName_wrap, hunknown]
  · decide

/-- Witness for C2 at the unknown token of the example. -/
theorem claim_C2_witness :
    emitPart exC2Map (wrapTok unknownW) = [⟨wrapTok unknownW, 0⟩] ∧
    effText (_replace_in_paragraph [⟨exC2Text, 1⟩] exC2Map) = exC2Out :=
  claim_C2 exC2Map unknownW (by decide) (by decide) (by decide)

/-- Identity of a paragraph under the empty mapping. -/
theorem replace_in_paragraph_empty (q : Para) : _replace_in_paragraph q [] = q := by
  rw [_replace_in_paragraph]
  simp

/-- C3: a paragraph whose effective text contains no mapping key in wrapped
form is returned run-for-run identical, and document-level substitution with
the empty mapping is the identity on the whole document. -/
theorem claim_C3 (D : DocT) (p : Para) (M : Mapping)
    (h : ∀ kv ∈ M, ¬ (wrapTok kv.1 <:+: effText p)) :
    _replace_in_paragraph p M = p ∧ replace_variables D [] = D := by
  constructor
  · rw [_replace_in_paragraph]
    have hc : (M.any fun kv => isSub (wrapTok kv.1) (effText p)) = false := by
      rw [List.any_eq_false]
      intro kv hkv hx
      exact h kv hkv (isSub_iff.mp hx)
    simp [hc]
  · cases D with
    | mk ps ts ss =>
      rw [replace_variables]
      simp [replace_in_paragraph_empty]

/-- A paragraph without token syntax, for the C3 witness. -/
def w3Para : Para := [⟨helloLit, 7⟩]

/-- C3 witness mapping: the key name does not occur wrapped in the text. -/
theorem claim_C3_witness :
    _replace_in_paragraph w3Para exC2Map = w3Para ∧
    replace_variables ⟨[w3Para], [], []⟩ [] = ⟨[w3Para], [], []⟩ :=
  claim_C3 ⟨[w3Para], [], []⟩ w3Para exC2Map (by decide)

/-- C4 (amended): when every mapping key is a well-formed token name, a
paragraph whose effective text contains no token substring is left untouched
(runs, styles and segmentation intact). -/
theorem claim_C4 (p : Para) (M : Mapping) (h1 : hasTok (effText p) = false)
    (h2 : GoodKeys M) : _replace_in_paragraph p M = p := by
  rw [_replace_in_paragraph]
  have hc : (M.any fun kv => isSub (wrapTok kv.1) (effText p)) = false := by
    rw [List.any_eq_false]
    intro kv hkv hx
    obtain ⟨hne, hfree⟩ := h2 kv hkv
    have := hasTok_of_contains (isSub_iff.mp hx) hne hfree
    rw [h1] at this
    cases this
  simp [hc]

/-- Witness for C4: a token-free paragraph and a well-formed mapping. -/
theorem claim_C4_witness : _replace_in_paragraph w3Para exC2Map = w3Para :=
  claim_C4 w3Para exC2Map (by decide) (by decide)

/-- First run of the C4 counterexample: x then open-open a. -/
def cexC4RunA : List Char := ['x', '\x7b', '\x7b', 'a']

/-- Second run of the C4 counterexample: close b close-close y. -/
def cexC4RunB : List Char := ['\x7d', 'b', '\x7d', '\x7d', 'y']

/-- The C4 counterexample paragraph: two styled runs whose concatenation
contains no token. -/
def cexC4Para : Para := [⟨cexC4RunA, 1⟩, ⟨cexC4RunB, 2⟩]

/-- The C4 counterexample mapping: its only key a-close-b is not a well-formed
token name. -/
def cexC4Map : Mapping := [(['a', '\x7d', 'b'], ['Z'])]

/-- Counterexample to C4 as frozen: the effective text has no recognizable
token substring, yet the paragraph is rebuilt — its two styled runs collapse
into one default-styled run (equal text, different runs). -/
theorem claim_C4_counterexample :
    hasTok (effText cexC4Para) = false ∧
    _replace_in_paragraph cexC4Para cexC4Map ≠ cexC4Para ∧
    _replace_in_paragraph cexC4Para cexC4Map =
      [⟨['x', '\x7b', '\x7b', 'a', '\x7d', 'b', '\x7d', '\x7d', 'y'], 0⟩] ∧
    effText (_replace_in_paragraph cexC4Para cexC4Map) = effText cexC4Para := by
  refine ⟨by decide, by decide, by decide, by decide⟩

/-- The empty-name token text: open-open close-close. -/
def emptyTokText : List Char := ['\x7b', '\x7b', '\x7d', '\x7d']

/-- Value for the empty name. -/
def yVal : List Char := ['Y']

/-- C7: the empty name is handled as a token by the rewriter when the whole
text is the bare empty token: with the empty name mapped to Y the effective
text becomes Y, and with the empty mapping the paragraph is untouched. -/
theorem claim_C7 :
    effText (_replace_in_paragraph [⟨emptyTokText, 5⟩] [([], yVal)]) = yVal ∧
    _replace_in_paragraph [⟨emptyTokText, 5⟩] [] = [⟨emptyTokText, 5⟩] := by
  refine ⟨by decide, by decide⟩

/-! ### Sorted-set lemmas -/

theorem mem_setInsert {a x : String} : ∀ {l : List String},
    a ∈ setInsert x l ↔ a = x ∨ a ∈ l := by
  intro l
  induction l with
  | nil => simp [setInsert]
  | cons y ys ih =>
    rw [setInsert]
    by_cases h1 : x < y
    · simp [h1]
    · by_cases h2 : x = y
      · subst h2
        simp [h1]
      · simp only [h1, if_false, h2, List.mem_cons, ih]
        constructor
        · intro h; rcases h with h | h | h
          · exact Or.inr (Or.inl h)
          · exact Or.inl h
          · exact Or.inr (Or.inr h)
        · intro h; rcases h with h | h | h
          · exact Or.inr (Or.inl h)
          · exact Or.inl h
          · exact Or.inr (Or.inr h)

theorem sorted_setInsert {x : String} : ∀ {l : List String},
    l.Sorted (· < ·) → (setInsert x l).Sorted (· < ·) := by
  intro l
  induction l with
  | nil => intro _; simp [setInsert]
  | cons y ys ih =>
    intro h
    rw [List.sorted_cons] at h
    obtain ⟨hy, hs⟩ := h
    rw [setInsert]
    by_cases h1 : x < y
    · rw [if_pos h1]
      rw [List.sorted_cons]
      refine ⟨?_, List.sorted_cons.mpr ⟨hy, hs⟩⟩
      intro b hb
      rcases List.mem_cons.mp hb with hb | hb
      · exact hb ▸ h1
      · exact lt_trans h1 (hy b hb)
    · by_cases h2 : x = y
      · rw [if_neg h1, if_pos h2]
        exact List.sorted_cons.mpr ⟨hy, hs⟩
      · rw [if_neg h1, if_neg h2]
        rw [List.sorted_cons]
        refine ⟨?_, ih hs⟩
        intro b hb
        rcases mem_setInsert.mp hb with hb | hb
        · have hyx : y < x := lt_of_le_of_ne (le_of_not_lt h1) (fun he => h2 he.symm)
          exact hb ▸ hyx
        · exact hy b hb

theorem sortedSet_go_mem : ∀ (xs acc : List String) (a : String),
    (a ∈ xs.foldl (fun acc x => setInsert x acc) acc) ↔ a ∈ acc ∨ a ∈ xs := by
  intro xs
  induction xs with
  | nil => intro acc a; simp
  | cons x xs ih =>
    intro acc a
    rw [List.foldl_cons, ih, mem_setInsert]
    simp only [List.mem_cons]
    tauto

theorem sortedSet_go_sorted : ∀ (xs acc : List String),
    acc.Sorted (· < ·) → (xs.foldl (fun acc x => setInsert x acc) acc).Sorted (· < ·) := by
  intro xs
  induction xs with
  | nil => intro acc h; simpa using h
  | cons x xs ih =>
    intro acc h
    rw [List.foldl_cons]
    exact ih _ (sorted_setInsert h)

theorem mem_sortedSet {a : String} {xs : List String} :
    a ∈ sortedSet xs ↔ a ∈ xs := by
  rw [sortedSet, sortedSet_go_mem]
  simp

theorem sorted_sortedSet (xs : List String) : (sortedSet xs).Sorted (· < ·) :=
  sortedSet_go_sorted xs [] (by simp)

/-! ### Claim theorems: extraction -/

theorem mem_hfTexts {t : List Char} {o : Option HeaderFooter} :
    t ∈ hfTexts o ↔ ∃ hf, o = some hf ∧ t ∈ hf.paragraphs.map effText := by
  cases o <;> simp [hfTexts]

/-- C6: extraction is deterministic, duplicate-free, and strictly ascending in
the natural text order on names. -/
theorem claim_C6 (D : DocT) :
    extract_variables D = extract_variables D ∧
    (extract_variables D).Nodup ∧
    (extract_variables D).Sorted (· < ·) := by
  refine ⟨rfl, ?_, ?_⟩
  · exact (sorted_sortedSet _).nodup
  · exact sorted_sortedSet _

/-- Name used by the table-cell example. -/
def zW : List Char := ['z']

/-- The name as a string. -/
def zString : String := String.mk zW

/-- Replacement value of the table-cell example. -/
def vVal : List Char := ['V']

/-- Mapping of the table-cell example. -/
def zMap : Mapping := [(zW, vVal)]

/-- The table-cell paragraph: the token z alone, styled 4. -/
def cellParaC5 : Para := [⟨wrapTok zW, 4⟩]

/-- A document whose only text is the token z inside one table cell. -/
def tblDoc : DocT := ⟨[], [⟨[⟨[⟨[cellParaC5]⟩]⟩]⟩], []⟩

/-- The same document after substituting z with V. -/
def tblDocSub : DocT := ⟨[], [⟨[⟨[⟨[[⟨vVal, 0⟩]]⟩]⟩]⟩], []⟩

/-- C5 (amended): a name is reported exactly when it occurs in the effective
text of a body paragraph, in the newline-joined text of a table cell, or in
the effective text of a header or footer paragraph of a section whose header
or footer is present (absent ones are skipped without error); and a
placeholder occurring only inside a table cell is reported and substituted. -/
theorem claim_C5 (D : DocT) (n : String) :
    (n ∈ extract_variables D ↔
      ((∃ p ∈ D.paragraphs, n ∈ namesOfText (effText p)) ∨
       (∃ tb ∈ D.tables, ∃ r ∈ tb.rows, ∃ c ∈ r.cells, n ∈ namesOfText (cellText c)) ∨
       (∃ s ∈ D.sections,
         (∃ hf, s.header = some hf ∧ ∃ p ∈ hf.paragraphs, n ∈ namesOfText (effText p)) ∨
         (∃ ff, s.footer = some ff ∧ ∃ p ∈ ff.paragraphs, n ∈ namesOfText (effText p))))) ∧
    extract_variables tblDoc = [zString] ∧
    replace_variables tblDoc zMap = tblDocSub := by
  refine ⟨?_, by decide, by decide⟩
  rw [extract_variables, mem_sortedSet]
  simp [extractTexts, mem_hfTexts, List.mem_flatten, List.mem_map, List.mem_append]
  constructor
  · rintro (h | h | h)
    · exact Or.inl h
    · obtain ⟨l, ⟨tb, htb, r, hr, c, hc, rfl⟩, hn⟩ := h
      exact Or.inr (Or.inl ⟨tb, htb, r, hr, c, hc, hn⟩)
    · obtain ⟨l, ⟨s, hs, hcase⟩, hn⟩ := h
      rcases hcase with ⟨t, ⟨hf, hhf, p, hp, rfl⟩, rfl⟩ | ⟨t, ⟨ff, hff, p, hp, rfl⟩, rfl⟩
      · exact Or.inr (Or.inr ⟨s, hs, Or.inl ⟨hf, hhf, p, hp, hn⟩⟩)
      · exact Or.inr (Or.inr ⟨s, hs, Or.inr ⟨ff, hff, p, hp, hn⟩⟩)
  · rintro (h | h | h)
    · exact Or.inl h
    · obtain ⟨tb, htb, r, hr, c, hc, hn⟩ := h
      exact Or.inr (Or.inl ⟨namesOfText (cellText c), ⟨tb, htb, r, hr, c, hc, rfl⟩, hn⟩)
    · obtain ⟨s, hs, hcase⟩ := h
      rcases hcase with ⟨hf, hhf, p, hp, hn⟩ | ⟨ff, hff, p, hp, hn⟩
      · exact Or.inr (Or.inr ⟨namesOfText (effText p), ⟨s, hs,
          Or.inl ⟨effText p, ⟨hf, hhf, p, hp, rfl⟩, rfl⟩⟩, hn⟩)
      · exact Or.inr (Or.inr ⟨namesOfText (effText p), ⟨s, hs,
          Or.inr ⟨effText p, ⟨ff, hff, p, hp, rfl⟩, rfl⟩⟩, hn⟩)

/-- First cell paragraph of the newline-join counterexample: open-open a. -/
def joinPara1 : Para := [⟨['\x7b', '\x7b', 'a'], 1⟩]

/-- Second cell paragraph: the complete token b. -/
def joinPara2 : Para := [⟨wrapTok ['b'], 2⟩]

/-- A document with one table cell holding the two paragraphs above. -/
def joinDoc : DocT := ⟨[], [⟨[⟨[⟨[joinPara1, joinPara2]⟩]⟩]⟩], []⟩

/-- The name the code reports: a newline open-open b, spanning the
newline-joined cell text. -/
def phantomName : String := String.mk ['a', '\n', '\x7b', '\x7b', 'b']

/-- The name b as a string. -/
def bString : String := String.mk ['b']

/-- Counterexample to C5 as frozen: the name b occurs in the effective text of
a cell paragraph but is not reported; instead a name occurring in no
paragraph's effective text is reported, because extraction scans the
newline-joined cell text. -/
theorem claim_C5_counterexample :
    extract_variables joinDoc = [phantomName] ∧
    bString ∉ extract_variables joinDoc ∧
    bString ∈ namesOfText (effText joinPara2) := by
  refine ⟨by decide, by decide, by decide⟩

/-! ### Claim theorems: orchestration -/

/-- Name of the separation example. -/
def qW : List Char := ['q']

/-- Value of the separation example. -/
def oneVal : List Char := ['1']

/-- Mapping of the separation example. -/
def c8Map : Mapping := [(qW, oneVal)]

/-- A document whose body consists of the token q alone. -/
def c8Doc : DocT := ⟨[[⟨wrapTok qW, 1⟩]], [], []⟩

/-- C8: both combined operations report the variables of the original
document, for every conversion capability, document and optional mapping;
and on a concrete document where substitution changes the variable set, the
reported list is still the original one. -/
theorem claim_C8 {Pdf : Type} (convert : DocT → Pdf) (D : DocT)
    (vars : Option Mapping) (presign : String → String → Nat → String)
    (uid : String) (bucket : String) (pfxOpt : Option String) (ttl : Nat) :
    (extract_variables_and_convert_pdf convert D vars).1 = extract_variables D ∧
    (extract_convert_upload_get_url convert presign uid D vars bucket pfxOpt ttl).varNames =
      extract_variables D ∧
    extract_variables (replace_variables c8Doc c8Map) ≠ extract_variables c8Doc ∧
    (extract_variables_and_convert_pdf (fun d => d) c8Doc (some c8Map)).1 =
      extract_variables c8Doc := by
  refine ⟨rfl, rfl, by decide, rfl⟩

/-! ### Claim theorems: normalization -/

/-- Key a of the normalization examples. -/
def aString : String := "a"

/-- Key b of the normalization examples. -/
def bKeyString : String := "b"

/-- Stringified integer three. -/
def threeString : String := "3"

/-- The empty text. -/
def emptyString : String := ""

/-- Name n of the record-list example. -/
def nString : String := "n"

/-- Stringified integer two. -/
def twoString : String := "2"

/-- C9 (amended): normalization raises exactly on inputs that are neither
null, a mapping, nor a sequence; dict values are stringified with null
becoming empty text; records lacking a name (absent or null) are dropped
silently, as are non-record items. -/
theorem claim_C9 (i : VarsInput) :
    ((∃ e, normalize_variables_input i = Except.error e) ↔ i = VarsInput.other) ∧
    normalize_variables_input (VarsInput.pydict
      [(PyVal.pystr aString, PyVal.pyint 3), (PyVal.pystr bKeyString, PyVal.pynone)]) =
      Except.ok [(aString, threeString), (bKeyString, emptyString)] ∧
    normalize_variables_input (VarsInput.pylist
      [ListItem.record [(valueField, PyVal.pystr aString)],
       ListItem.nondict (PyVal.pyint 1),
       ListItem.record [(nameField, PyVal.pystr nString), (valueField, PyVal.pyint 2)],
       ListItem.record [(nameField, PyVal.pynone), (valueField, PyVal.pyint 9)]]) =
      Except.ok [(nString, twoString)] := by
  refine ⟨?_, by rfl, by rfl⟩
  cases i <;> simp [normalize_variables_input]

/-- Counterexample to C9 as frozen: Python `None` is neither a mapping nor a
sequence of records, yet normalization returns the empty mapping instead of
raising. -/
theorem claim_C9_counterexample :
    normalize_variables_input VarsInput.pynone = Except.ok [] ∧
    VarsInput.pynone ≠ VarsInput.other := by
  refine ⟨rfl, by decide⟩

/-- Convert a normalized string mapping to the character-list mapping used by
substitution. -/
def toMapping (m : List (String × String)) : Mapping :=
  m.map (fun kv => (kv.1.data, kv.2.data))

/-- Default key path segment of `replace_from_s3_convert_and_upload`. -/
def processedStr : String := "processed"

/-- Embedding of `replace_from_s3_convert_and_upload`: download (injected), normalize,
substitute, convert, upload (opaque), and return the generated key; a
normalization error propagates. -/
def replace_from_s3_convert_and_upload {Pdf : Type}
    (getObject : String → String → DocT) (convert : DocT → Pdf)
    (unique_id : String) (source_bucket source_key : String) (vin : VarsInput)
    ( target_prefix : Option String) : Except String String :=
  (normalize_variables_input vin).map (fun normalized =>
    let original := getObject source_bucket source_key
    let modified := replace_variables original (toMapping normalized)
    let _pdf := convert modified
    let pfxSrc :=
      match target_prefix with
      | some s => if s.isEmpty then processedStr else s
      | none => processedStr
    let pfx := pyStrip pfxSrc.data '/'
    if pfx.isEmpty then unique_id ++ pdfExt
    else String.mk (pfx ++ '/' :: (unique_id ++ pdfExt).data))

theorem dictInsert_keys {acc : List (String × String)} {k v : String}
    (hacc : ∀ kv ∈ acc, kv.1 ≠ "") (hk : k ≠ "") :
    ∀ kv ∈ dictInsert acc k v, kv.1 ≠ "" := by
  intro kv hkv
  rw [dictInsert] at hkv
  by_cases hany : acc.any (fun kv => kv.1 = k)
  · rw [if_pos hany] at hkv
    obtain ⟨kv0, hkv0, he⟩ := List.mem_map.mp hkv
    by_cases h0 : kv0.1 = k
    · rw [if_pos h0] at he
      rw [← he]
      exact hk
    · rw [if_neg h0] at he
      rw [← he]
      exact hacc kv0 hkv0
  · rw [if_neg hany] at hkv
    rcases List.mem_append.mp hkv with h | h
    · exact hacc kv h
    · simp at h
      rw [h]
      exact hk

theorem dictFold_keys : ∀ (es : List (PyVal × PyVal)) (acc : List (String × String)),
    (∀ kv ∈ acc, kv.1 ≠ "") →
    ∀ kv ∈ es.foldl normalizeDictStep acc, kv.1 ≠ "" := by
  intro es
  induction es with
  | nil => intro acc hacc; simpa using hacc
  | cons e es ih =>
    intro acc hacc
    rw [List.foldl_cons]
    apply ih
    rw [normalizeDictStep]
    by_cases hk : pyStr e.1 ≠ ""
    · rw [if_pos hk]
      exact dictInsert_keys hacc hk
    · rw [if_neg hk]
      exact hacc

theorem listFold_keys : ∀ (items : List ListItem) (acc : List (String × String)),
    (∀ kv ∈ acc, kv.1 ≠ "") →
    ∀ kv ∈ items.foldl normalizeListStep acc, kv.1 ≠ "" := by
  intro items
  induction items with
  | nil => intro acc hacc; simpa using hacc
  | cons item items ih =>
    intro acc hacc
    rw [List.foldl_cons]
    apply ih
    cases item with
    | nondict v => simp only [normalizeListStep]; exact hacc
    | record fs =>
      cases hn : fieldGet fs nameField with
      | none => simp only [normalizeListStep, hn]; exact hacc
      | some nameVal =>
        cases nameVal with
        | pynone => simp only [normalizeListStep, hn]; exact hacc
        | pystr s =>
          simp only [normalizeListStep, hn]
          by_cases hk : pyStr (PyVal.pystr s) ≠ ""
          · rw [if_pos hk]; exact dictInsert_keys hacc hk
          · rw [if_neg hk]; exact hacc
        | pyint n =>
          simp only [normalizeListStep, hn]
          by_cases hk : pyStr (PyVal.pyint n) ≠ ""
          · rw [if_pos hk]; exact dictInsert_keys hacc hk
          · rw [if_neg hk]; exact hacc
        | pybool b =>
          simp only [normalizeListStep, hn]
          by_cases hk : pyStr (PyVal.pybool b) ≠ ""
          · rw [if_pos hk]; exact dictInsert_keys hacc hk
          · rw [if_neg hk]; exact hacc

theorem lookupVar_toMapping_nil {m : List (String × String)}
    (h : ∀ kv ∈ m, kv.1 ≠ "") : lookupVar (toMapping m) [] = none := by
  induction m with
  | nil => rfl
  | cons kv rest ih =>
    rw [toMapping, List.map_cons, lookupVar]
    have hne : kv.1 ≠ "" := h kv (by simp)
    have hdata : ¬ (([] : List Char) = kv.1.data) := by
      intro hd
      exact hne (String.ext hd.symm)
    rw [if_neg hdata]
    exact ih (fun kv2 h2 => h kv2 (by simp [h2]))

/-- C10: every mapping produced by normalization is free of the empty name —
in the dict form and in the record-list form every entry whose name
stringifies to empty text is dropped — so substitution performed on a
normalized mapping never finds a value for the empty name. -/
theorem claim_C10 (i : VarsInput) (m : List (String × String))
    (h : normalize_variables_input i = Except.ok m) :
    (∀ kv ∈ m, kv.1 ≠ "") ∧ lookupVar (toMapping m) [] = none := by
  have hkeys : ∀ kv ∈ m, kv.1 ≠ "" := by
    cases i with
    | pynone =>
      rw [normalize_variables_input] at h
      cases h
      simp
    | pydict entries =>
      rw [normalize_variables_input] at h
      cases h
      exact dictFold_keys entries [] (by simp)
    | pylist items =>
      rw [normalize_variables_input] at h
      cases h
      exact listFold_keys items [] (by simp)
    | other =>
      rw [normalize_variables_input] at h
      cases h
  exact ⟨hkeys, lookupVar_toMapping_nil hkeys⟩

/-- Witness for C10: a dict with an empty-name entry and an ordinary entry
normalizes to just the ordinary entry, and the empty name looks up to
nothing. -/
theorem claim_C10_witness :
    (∀ kv ∈ [(aString, threeString)], kv.1 ≠ "") ∧
    lookupVar (toMapping [(aString, threeString)]) [] = none :=
  claim_C10 (VarsInput.pydict
    [(PyVal.pystr emptyString, PyVal.pystr bKeyString),
     (PyVal.pystr aString, PyVal.pyint 3)]) [(aString, threeString)] (by rfl)
end DocxProof
